import Mathlib

/-!
Verification of `train_words.py` (instance-based tagging).

Floating-point tensors are modelled over the reals; log-space scores that may
be `-inf` are modelled in the extended reals `EReal`, with `EReal.exp` landing
in `ℝ≥0∞` and `ENNReal.log` going back, so that `exp (-inf) = 0` and
`log 0 = -inf` hold exactly as in the numeric code.
-/

namespace TrainWords

/-! ### Device transfer (`move_to_device`, lines 18-38) -/

/-- A compute device: the host CPU or a CUDA accelerator with an index. -/
inductive Device where
  | cpu : Device
  | cuda : ℕ → Device
deriving DecidableEq

/-- A Python value as `move_to_device` sees it: a tensor (abstract payload plus
the device it lives on), a dict with string keys, a list, a named tuple
(class name plus ordered fields), a plain tuple, or any other object. -/
inductive Obj where
  | tensor (data : ℤ) (device : Device)
  | dict (entries : List (String × Obj))
  | list (items : List Obj)
  | namedTuple (clsName : String) (fields : List Obj)
  | tuple (items : List Obj)
  | other (val : ℤ)

mutual

/-- Embedding of `move_to_device` (lines 18-38): if the target device is the
CPU the input is returned unchanged; tensors are relocated; dicts, lists,
named tuples and plain tuples are rebuilt with the same structure; everything
else falls through the final `else` and is returned as is. -/
def move_to_device (obj : Obj) (cuda_device : Device) : Obj :=
  if cuda_device = Device.cpu then
    obj
  else
    match obj with
    | .tensor data _ => .tensor data cuda_device
    | .dict entries => .dict (moveEntries entries cuda_device)
    | .list items => .list (moveItems items cuda_device)
    | .namedTuple clsName fields => .namedTuple clsName (moveItems fields cuda_device)
    | .tuple items => .tuple (moveItems items cuda_device)
    | .other val => .other val

/-- Recursion of `move_to_device` over dict entries, keeping each key. -/
def moveEntries (entries : List (String × Obj)) (cuda_device : Device) :
    List (String × Obj) :=
  match entries with
  | [] => []
  | (key, value) :: rest =>
      (key, move_to_device value cuda_device) :: moveEntries rest cuda_device

/-- Recursion of `move_to_device` over list/tuple items, in order. -/
def moveItems (items : List Obj) (cuda_device : Device) : List Obj :=
  match items with
  | [] => []
  | item :: rest => move_to_device item cuda_device :: moveItems rest cuda_device

end

/-! ### Representation extractor (`Model.get_word_representations`, lines 50-77)

A batch of token ids is a list of sentences (each `Fin S → ℕ`, `0` = padding);
the word-mapping input is a list of per-sentence `S × S` real matrices. The
pretrained encoder is an opaque per-sentence function from (token ids,
attention mask) to contextual vectors; batching applies it to each sentence. -/

/-- The chunks produced by `torch.split(·, K, dim=0)`: pieces of size `K` in
order, the last piece possibly smaller (meaningful for `K ≥ 1`). -/
def chunkList {α : Type} (K : ℕ) : List α → List (List α)
  | [] => []
  | a :: l => (a :: l.take (K - 1)) :: chunkList K (l.drop (K - 1))
termination_by l => l.length
decreasing_by
  simp only [List.length_drop, List.length_cons]
  omega

/-- The attention mask derived on line 69: `(x != 0).long()`. -/
def attnMask {S : ℕ} (x : Fin S → ℕ) : Fin S → ℕ :=
  fun i => if x i ≠ 0 then 1 else 0

/-- The unsharded body of `get_word_representations` (lines 69-77): derive the
attention mask, run the encoder, then `torch.bmm(mapper, bertrep)` pools
sub-word vectors into word vectors, sentence by sentence. -/
def wordRepsFull {S H : ℕ}
    (bert : (Fin S → ℕ) → (Fin S → ℕ) → Fin S → Fin H → ℝ)
    (x : List (Fin S → ℕ)) (mapper : List (Fin S → Fin S → ℝ)) :
    List (Fin S → Fin H → ℝ) :=
  List.zipWith
    (fun xi mi => fun w h => ∑ p, mi w p * bert xi (attnMask xi) p h) x mapper

/-- Embedding of `Model.get_word_representations` (lines 50-77): when
`shard_batch_size` is set, both inputs are split along the batch axis, each
pair of chunks is processed by a recursive call that passes no shard size
(hence takes the full path), and the results are concatenated; otherwise the
whole batch is processed in one pass. -/
def get_word_representations {S H : ℕ}
    (bert : (Fin S → ℕ) → (Fin S → ℕ) → Fin S → Fin H → ℝ) :
    List (Fin S → ℕ) → List (Fin S → Fin S → ℝ) → Option ℕ →
      List (Fin S → Fin H → ℝ)
  | x, mapper, some K =>
      (((chunkList K x).zip (chunkList K mapper)).map
        (fun p => get_word_representations bert p.1 p.2 none)).flatten
  | x, mapper, none => wordRepsFull bert x mapper
termination_by _ _ o => if o.isSome then 1 else 0
decreasing_by
  simp

/-! ### Autograd-tracking mirror of the representation extractor

To make gradient detachment observable, a tensor scalar is paired with its
`requires_grad` tracking bit, propagated by torch's documented rule: the
result of an operation requires grad iff one of its tensor inputs does, and
`Tensor.detach()` returns the same value with tracking dropped. The source of
`get_word_representations` (lines 50-77) contains no `detach()` call, and the
mirror below reflects that: `GradReal.detach` is never applied by it. -/

/-- A scalar tensor entry together with its autograd tracking bit. -/
structure GradReal where
  val : ℝ
  requiresGrad : Bool

/-- Elementwise tensor addition: values add, tracking bits propagate. -/
def GradReal.add (x y : GradReal) : GradReal :=
  ⟨x.val + y.val, x.requiresGrad || y.requiresGrad⟩

/-- The zero tensor entry, not requiring grad. -/
def GradReal.zero : GradReal := ⟨0, false⟩

instance : Add GradReal := ⟨GradReal.add⟩

instance : Zero GradReal := ⟨GradReal.zero⟩

instance : AddCommMonoid GradReal where
  add := (· + ·)
  zero := 0
  nsmul := nsmulRec
  add_assoc a b c := by
    show GradReal.add (GradReal.add a b) c = GradReal.add a (GradReal.add b c)
    simp [GradReal.add, add_assoc, Bool.or_assoc]
  zero_add a := by
    show GradReal.add GradReal.zero a = a
    simp [GradReal.add, GradReal.zero]
  add_zero a := by
    show GradReal.add a GradReal.zero = a
    simp [GradReal.add, GradReal.zero]
  add_comm a b := by
    show GradReal.add a b = GradReal.add b a
    simp [GradReal.add, add_comm, Bool.or_comm]

/-- Multiplying by a plain (non-tensor) scalar keeps the tracking bit. -/
def rsmul (c : ℝ) (x : GradReal) : GradReal := ⟨c * x.val, x.requiresGrad⟩

/-- The semantics of `Tensor.detach()`: same value, tracking dropped. -/
def GradReal.detach (x : GradReal) : GradReal := ⟨x.val, false⟩

/-- The unsharded body of `get_word_representations` (lines 69-77) over
tracked scalars: mask derivation, encoder call, `bmm` pooling; no `detach`
appears, exactly as in the source. -/
def wordRepsFullTracked {S H : ℕ}
    (bert : (Fin S → ℕ) → (Fin S → ℕ) → Fin S → Fin H → GradReal)
    (x : List (Fin S → ℕ)) (mapper : List (Fin S → Fin S → ℝ)) :
    List (Fin S → Fin H → GradReal) :=
  List.zipWith
    (fun xi mi => fun w h => ∑ p, rsmul (mi w p) (bert xi (attnMask xi) p h))
    x mapper

/-- Embedding of `Model.get_word_representations` (lines 50-77) over tracked
scalars: identical structure to the untracked embedding — split, recursive
call with no shard size, concatenate — with no `detach` anywhere, because the
source performs none. -/
def get_word_representations_tracked {S H : ℕ}
    (bert : (Fin S → ℕ) → (Fin S → ℕ) → Fin S → Fin H → GradReal) :
    List (Fin S → ℕ) → List (Fin S → Fin S → ℝ) → Option ℕ →
      List (Fin S → Fin H → GradReal)
  | x, mapper, some K =>
      (((chunkList K x).zip (chunkList K mapper)).map
        (fun p => get_word_representations_tracked bert p.1 p.2 none)).flatten
  | x, mapper, none => wordRepsFullTracked bert x mapper
termination_by _ _ o => if o.isSome then 1 else 0
decreasing_by
  simp

/-! ### Optimizer state over one training batch (`train`, lines 140-166)

The parameter, gradient-buffer and batch types, the gradient of the normalised
loss, the in-place clipping and the optimizer update are abstract; the cycle
records the order of operations in the loop body. -/

/-- One iteration of the training loop (lines 141-166), restricted to the
gradient buffer: `optimizer.zero_grad()` resets the accumulated gradients,
`loss.div(x.numel()).backward()` adds the current batch's gradients into the
buffer, `clip_grad_norm_` rescales the buffer in place, and `optimizer.step()`
updates the parameters from the buffer. -/
def optimizerCycle {P G B : Type} [AddCommMonoid G]
    (gradOf : P → B → G) (clipGrads : G → G) (applyStep : P → G → P)
    (s : P × G) (batch : B) : P × G :=
  let zeroed : G := 0
  let accumulated : G := zeroed + gradOf s.1 batch
  let clipped : G := clipGrads accumulated
  (applyStep s.1 clipped, clipped)

/-- The per-epoch batch loop (line 140): fold `optimizerCycle` over the
batches in order. -/
def trainEpochFold {P G B : Type} [AddCommMonoid G]
    (gradOf : P → B → G) (clipGrads : G → G) (applyStep : P → G → P)
    (s : P × G) (batches : List B) : P × G :=
  List.foldl (optimizerCycle gradOf clipGrads applyStep) s batches

/-! ### Neighbor loss and decoder (`get_batch_loss` lines 80-103,
`get_batch_predictions` lines 106-132)

Query representations are `Bq × Sq × H` real tensors, neighbor representations
`Bn × Sn × H`; `view(-1, H)` flattens the two leading axes in row-major order.
Log-space scores live in `EReal` so that the `-inf` column appended for the
sentinel target index behaves exactly as in the code. -/

open scoped ENNReal

noncomputable section

/-- Row-major flattening of an index into `B * S`, inverse of `view(-1, ·)`. -/
def unflatten {B S : ℕ} (k : Fin (B * S)) : Fin B × Fin S :=
  have hS : 0 < S := by
    rcases Nat.eq_zero_or_pos S with h | h
    · exact absurd k.isLt (by simp [h])
    · exact h
  (⟨k.val / S, (Nat.div_lt_iff_lt_mul hS).mpr k.isLt⟩, ⟨k.val % S, Nat.mod_lt _ hS⟩)

/-- The semantics of `X.view(-1, ...)` on a tensor whose two leading axes are
`B` and `S`: index arithmetic in row-major order. -/
def view2 {B S : ℕ} {γ : Type} (X : Fin B → Fin S → γ) : Fin (B * S) → γ :=
  fun k => X (unflatten k).1 (unflatten k).2

/-- Row-major flat index of position `(i, j)`, as produced by
`view(batch_size, seq_len)` on the flattened axis. -/
def flatPair {B S : ℕ} (i : Fin B) (j : Fin S) : Fin (B * S) :=
  ⟨i.val * S + j.val, by
    calc i.val * S + j.val < i.val * S + S := Nat.add_lt_add_left j.isLt _
    _ = (i.val + 1) * S := (Nat.succ_mul i.val S).symm
    _ ≤ B * S := Nat.mul_le_mul_right S i.isLt⟩

/-- The raw similarity matrix (lines 91-94 and 117-120):
`torch.mm(batch.view(-1, H), neighbors.view(-1, H).t())`. -/
def simScores {Bq Sq H Bn Sn : ℕ}
    (batch_representations : Fin Bq → Fin Sq → Fin H → ℝ)
    (neighbor_representations : Fin Bn → Fin Sn → Fin H → ℝ) :
    Fin (Bq * Sq) → Fin (Bn * Sn) → ℝ :=
  fun t n => ∑ h, view2 batch_representations t h * view2 neighbor_representations n h

/-- The log-partition term of `torch.log_softmax(·, dim=1)` for one row. -/
def logZ {T N : ℕ} (s : Fin T → Fin N → ℝ) (t : Fin T) : EReal :=
  ENNReal.log (∑ n, EReal.exp ((s t n : ℝ) : EReal))

/-- `torch.log_softmax(scores, dim=1)`: each entry minus its row's
log-sum-exp. -/
def logSoftmax {T N : ℕ} (s : Fin T → Fin N → ℝ) : Fin T → Fin N → EReal :=
  fun t n => ((s t n : ℝ) : EReal) - logZ s t

/-- Lines 98-99: the log-softmax scores with one extra `-inf` column appended
at index `N` (the sentinel target index). -/
def scoresWithDummy {T N : ℕ} (s : Fin T → Fin N → ℝ) :
    Fin T → Fin (N + 1) → EReal :=
  fun t j => if h : (j : ℕ) < N then logSoftmax s t ⟨j, h⟩ else ⊥

/-- `torch.logsumexp` over one row of extended reals. -/
def logsumexp {M : ℕ} (v : Fin M → EReal) : EReal :=
  ENNReal.log (∑ m, EReal.exp (v m))

/-- Embedding of `get_batch_loss` (lines 80-103): log-softmax similarity
scores, a `-inf` column for the sentinel, `gather` at the target indices,
row-wise `logsumexp`, then the negated sum over all query tokens. -/
def get_batch_loss {Bq Sq H Bn Sn M : ℕ}
    (batch_representations : Fin Bq → Fin Sq → Fin H → ℝ)
    (neighbor_representations : Fin Bn → Fin Sn → Fin H → ℝ)
    (targets : Fin Bq → Fin Sq → Fin M → Fin (Bn * Sn + 1)) : EReal :=
  -(∑ t, logsumexp (fun m =>
    scoresWithDummy (simScores batch_representations neighbor_representations)
      t (view2 targets t m)))

/-- Modelled from the spec (section 4.3, claim C1): the probability, under the
softmax of row `t` of the raw similarity matrix, of the neighbor token at
column `j`; the sentinel column `N` always selects zero probability. -/
def specProb {T N : ℕ} (s : Fin T → Fin N → ℝ) (t : Fin T) (j : Fin (N + 1)) :
    ℝ≥0∞ :=
  if h : (j : ℕ) < N then
    ENNReal.ofReal (Real.exp (s t ⟨j, h⟩) / ∑ n, Real.exp (s t n))
  else 0

/-- Modelled from the spec (section 4.3, claim C1): the negated sum, over all
query tokens, of the log of the total probability mass assigned to that
token's target indices. -/
def specLoss {Bq Sq H Bn Sn M : ℕ}
    (batch_representations : Fin Bq → Fin Sq → Fin H → ℝ)
    (neighbor_representations : Fin Bn → Fin Sn → Fin H → ℝ)
    (targets : Fin Bq → Fin Sq → Fin M → Fin (Bn * Sn + 1)) : EReal :=
  -(∑ t, ENNReal.log (∑ m,
    specProb (simScores batch_representations neighbor_representations)
      t (view2 targets t m)))

/-- Line 124: per table entry, `torch.logsumexp(scores + mask, dim=1)`, a
score for every query token. -/
def tagScores {Bq Sq H Bn Sn : ℕ}
    (batch_representations : Fin Bq → Fin Sq → Fin H → ℝ)
    (neighbor_representations : Fin Bn → Fin Sn → Fin H → ℝ)
    (tag_to_mask : List (String × (Fin (Bq * Sq) → Fin (Bn * Sn) → EReal))) :
    List (Fin (Bq * Sq) → EReal) :=
  tag_to_mask.map (fun pr => fun t =>
    ENNReal.log (∑ n, EReal.exp
      (logSoftmax (simScores batch_representations neighbor_representations) t n
        + pr.2 t n)))

/-- The maximum of a list of extended reals (`-inf` for the empty list). -/
def maxOf (l : List EReal) : EReal := l.foldr max ⊥

open Classical in
/-- The semantics of `torch.argmax(·, dim=0)` on a stacked list of scores:
the index of the first occurrence of the maximum value. -/
def firstArgmax (l : List EReal) : ℕ :=
  l.findIdx (fun x => decide (x = maxOf l))

/-- Embedding of `get_batch_predictions` (lines 106-132): log-softmax
similarity scores, per-tag mask-and-logsumexp aggregation, `argmax` over the
stacked tag scores, and the winning index mapped back to its tag string,
reshaped to `batch_size × seq_len`. -/
def get_batch_predictions {Bq Sq H Bn Sn : ℕ}
    (batch_representations : Fin Bq → Fin Sq → Fin H → ℝ)
    (neighbor_representations : Fin Bn → Fin Sn → Fin H → ℝ)
    (tag_to_mask : List (String × (Fin (Bq * Sq) → Fin (Bn * Sn) → EReal))) :
    List (List String) :=
  List.ofFn (fun i : Fin Bq => List.ofFn (fun j : Fin Sq =>
    (tag_to_mask.getD
      (firstArgmax
        ((tagScores batch_representations neighbor_representations
          tag_to_mask).map (fun f => f (flatPair i j))))
      ("", fun _ _ => ⊥)).1))

/-! ### Concrete toy batches used to evaluate the loss and decoder -/

/-- A `1 × 1 × 1` all-zero representation tensor (used as both query and
neighbor representations of a toy batch). -/
def zeroReps : Fin 1 → Fin 1 → Fin 1 → ℝ := fun _ _ _ => 0

/-- A target tensor whose single query token lists the same valid neighbor
index twice. -/
def dupTargets : Fin 1 → Fin 1 → Fin 2 → Fin (1 * 1 + 1) := fun _ _ _ => 0

/-- A target tensor whose single query token lists the single neighbor index
once. -/
def singleTarget : Fin 1 → Fin 1 → Fin 1 → Fin (1 * 1 + 1) := fun _ _ _ => 0

/-! ### Cosine normalization (`train`, lines 153-159) -/

/-- The Euclidean norm along the hidden dimension. -/
def l2norm {H : ℕ} (v : Fin H → ℝ) : ℝ := Real.sqrt (∑ h, v h ^ 2)

/-- The semantics of `torch.nn.functional.normalize(·, p=2, dim=·)` on one
vector: divide by the norm clamped below by `eps`. -/
def normalizeVec {H : ℕ} (eps : ℝ) (v : Fin H → ℝ) : Fin H → ℝ :=
  fun h => v h / max (l2norm v) eps

/-- The default `eps` of `torch.nn.functional.normalize`, `1e-12`. -/
def normalizeEps : ℝ := 1 / 10 ^ 12

/-- Lines 154-159: `F.normalize(reps, p=2, dim=2)`, vector by vector along
the hidden dimension. -/
def normalizeReps {B S H : ℕ} (reps : Fin B → Fin S → Fin H → ℝ) :
    Fin B → Fin S → Fin H → ℝ :=
  fun b s => normalizeVec normalizeEps (reps b s)

/-- Lines 153-161 of `train`: when the cosine toggle is on, both
representation sets are L2-normalized along the hidden dimension before
`get_batch_loss` computes the similarity scores. -/
def trainBatchLoss {Bq Sq H Bn Sn M : ℕ} (cosine : Bool)
    (batch_representations : Fin Bq → Fin Sq → Fin H → ℝ)
    (neighbor_representations : Fin Bn → Fin Sn → Fin H → ℝ)
    (targets : Fin Bq → Fin Sq → Fin M → Fin (Bn * Sn + 1)) : EReal :=
  get_batch_loss
    (if cosine then normalizeReps batch_representations
      else batch_representations)
    (if cosine then normalizeReps neighbor_representations
      else neighbor_representations)
    targets

end

/-! ### Evaluation metrics (`evaluate`, lines 221-224) -/

/-- Micro precision as computed on line 221:
`total_corrects / total_preds if total_preds > 0 else 0`. -/
def microPrec (total_preds total_corrects : ℚ) : ℚ :=
  if total_preds > 0 then total_corrects / total_preds else 0

/-- Micro recall as computed on line 222:
`total_corrects / total_golds if total_golds > 0 else 0`. -/
def microRec (total_golds total_corrects : ℚ) : ℚ :=
  if total_golds > 0 then total_corrects / total_golds else 0

/-- Micro F1 as computed on line 223: `2 * p * r / (p + r)` with Python's `/`,
which raises `ZeroDivisionError` when the denominator is zero. -/
def microF1 (total_preds total_golds total_corrects : ℚ) : Except String ℚ :=
  let p := microPrec total_preds total_corrects
  let r := microRec total_golds total_corrects
  if p + r = 0 then
    Except.error "ZeroDivisionError: float division by zero"
  else
    Except.ok (2 * p * r / (p + r))

end TrainWords

namespace TrainWords

theorem exp_logSoftmax {T N : ℕ} (s : Fin T → Fin N → ℝ) (t : Fin T)
    (n : Fin N) :
    EReal.exp (logSoftmax s t n) =
      ENNReal.ofReal (Real.exp (s t n) / ∑ k, Real.exp (s t k)) := by
  have hZ0 : (∑ k, EReal.exp ((s t k : ℝ) : EReal)) ≠ 0 := by
    intro h0
    have := (Finset.sum_eq_zero_iff.mp h0) n (Finset.mem_univ n)
    rw [EReal.exp_coe, ENNReal.ofReal_eq_zero] at this
    exact (Real.exp_pos _).not_le this
  have hZtop : (∑ k, EReal.exp ((s t k : ℝ) : EReal)) ≠ ⊤ :=
    (ENNReal.sum_lt_top.mpr (fun k _ => by
      rw [EReal.exp_coe]; exact ENNReal.ofReal_lt_top)).ne
  have hZr : 0 < (∑ k, EReal.exp ((s t k : ℝ) : EReal)).toReal :=
    ENNReal.toReal_pos hZ0 hZtop
  have hlog : logZ s t =
      ((Real.log (∑ k, EReal.exp ((s t k : ℝ) : EReal)).toReal : ℝ) : EReal) := by
    rw [logZ]
    exact ENNReal.log_pos_real hZ0 hZtop
  rw [logSoftmax, hlog, ← EReal.coe_sub, EReal.exp_coe]
  congr 1
  rw [Real.exp_sub, Real.exp_log hZr]
  congr 1
  rw [ENNReal.toReal_sum (fun k _ => by
    rw [EReal.exp_coe]; exact ENNReal.ofReal_ne_top)]
  exact Finset.sum_congr rfl (fun k _ => by
    rw [EReal.exp_coe, ENNReal.toReal_ofReal (Real.exp_nonneg _)])

theorem exp_scoresWithDummy {T N : ℕ} (s : Fin T → Fin N → ℝ) (t : Fin T)
    (j : Fin (N + 1)) :
    EReal.exp (scoresWithDummy s t j) = specProb s t j := by
  unfold scoresWithDummy specProb
  split
  · exact exp_logSoftmax s t _
  · simp

theorem sum_exp_logSoftmax {T N : ℕ} (s : Fin T → Fin N → ℝ) (t : Fin T)
    (hN : 0 < N) :
    ∑ n : Fin N, EReal.exp (logSoftmax s t n) = 1 := by
  have hD : 0 < ∑ k, Real.exp (s t k) :=
    Finset.sum_pos (fun k _ => Real.exp_pos _) ⟨⟨0, hN⟩, Finset.mem_univ _⟩
  calc ∑ n : Fin N, EReal.exp (logSoftmax s t n)
      = ∑ n : Fin N,
          ENNReal.ofReal (Real.exp (s t n) / ∑ k, Real.exp (s t k)) :=
        Finset.sum_congr rfl (fun n _ => exp_logSoftmax s t n)
    _ = ENNReal.ofReal
          (∑ n : Fin N, Real.exp (s t n) / ∑ k, Real.exp (s t k)) :=
        (ENNReal.ofReal_sum_of_nonneg
          (fun n _ => div_nonneg (Real.exp_nonneg _) hD.le)).symm
    _ = 1 := by rw [← Finset.sum_div, div_self hD.ne', ENNReal.ofReal_one]

theorem sum_exp_scoresWithDummy {T N : ℕ} (s : Fin T → Fin N → ℝ) (t : Fin T)
    (hN : 0 < N) :
    ∑ j : Fin (N + 1), EReal.exp (scoresWithDummy s t j) = 1 := by
  rw [Fin.sum_univ_castSucc]
  have hlast : EReal.exp (scoresWithDummy s t (Fin.last N)) = 0 := by
    unfold scoresWithDummy
    rw [dif_neg (by simp)]
    exact EReal.exp_bot
  rw [hlast, add_zero, ← sum_exp_logSoftmax s t hN]
  apply Finset.sum_congr rfl
  intro i _
  have hc : ((Fin.castSucc i : Fin (N + 1)) : ℕ) < N := by
    simpa using i.isLt
  unfold scoresWithDummy
  rw [dif_pos hc]
  have hi : (⟨((Fin.castSucc i : Fin (N + 1)) : ℕ), hc⟩ : Fin N) = i :=
    Fin.ext (by simp)
  rw [hi]

theorem row_sum_le_one {T N M : ℕ} (s : Fin T → Fin N → ℝ) (t : Fin T)
    (g : Fin M → Fin (N + 1))
    (hvalid : ∃ m, (g m : ℕ) < N)
    (hdist : ∀ m m', (g m : ℕ) < N → g m = g m' → m = m') :
    ∑ m, EReal.exp (scoresWithDummy s t (g m)) ≤ 1 := by
  obtain ⟨m0, hm0⟩ := hvalid
  have hN : 0 < N := lt_of_le_of_lt (Nat.zero_le _) hm0
  calc ∑ m, EReal.exp (scoresWithDummy s t (g m))
      = (∑ m ∈ Finset.univ.filter (fun m => (g m : ℕ) < N),
          EReal.exp (scoresWithDummy s t (g m))) +
        ∑ m ∈ Finset.univ.filter (fun m => ¬ (g m : ℕ) < N),
          EReal.exp (scoresWithDummy s t (g m)) :=
      (Finset.sum_filter_add_sum_filter_not _ _ _).symm
    _ = ∑ m ∈ Finset.univ.filter (fun m => (g m : ℕ) < N),
          EReal.exp (scoresWithDummy s t (g m)) := by
      have hz : ∑ m ∈ Finset.univ.filter (fun m => ¬ (g m : ℕ) < N),
          EReal.exp (scoresWithDummy s t (g m)) = 0 :=
        Finset.sum_eq_zero (fun m hm => by
          unfold scoresWithDummy
          rw [dif_neg (Finset.mem_filter.mp hm).2]
          exact EReal.exp_bot)
      rw [hz, add_zero]
    _ = ∑ j ∈ (Finset.univ.filter (fun m => (g m : ℕ) < N)).image g,
          EReal.exp (scoresWithDummy s t j) := by
      have himg : ∑ j ∈ (Finset.univ.filter (fun m => (g m : ℕ) < N)).image g,
          EReal.exp (scoresWithDummy s t j) =
          ∑ m ∈ Finset.univ.filter (fun m => (g m : ℕ) < N),
            EReal.exp (scoresWithDummy s t (g m)) :=
        Finset.sum_image (fun m hm m' hm' hgm =>
          hdist m m' (Finset.mem_filter.mp hm).2 hgm)
      exact himg.symm
    _ ≤ ∑ j, EReal.exp (scoresWithDummy s t j) :=
      Finset.sum_le_sum_of_subset (Finset.subset_univ _)
    _ = 1 := sum_exp_scoresWithDummy s t hN

/-- C1: `get_batch_loss` returns the negated sum, over all query tokens, of
the log of the softmax probability mass that the raw similarity scores assign
to that token's target indices (the sentinel column always contributing zero
mass), i.e. the log-sum-exp of the gathered log-softmax scores. -/
theorem get_batch_loss_eq_specLoss {Bq Sq H Bn Sn M : ℕ}
    (batch_representations : Fin Bq → Fin Sq → Fin H → ℝ)
    (neighbor_representations : Fin Bn → Fin Sn → Fin H → ℝ)
    (targets : Fin Bq → Fin Sq → Fin M → Fin (Bn * Sn + 1)) :
    get_batch_loss batch_representations neighbor_representations targets =
      specLoss batch_representations neighbor_representations targets := by
  unfold get_batch_loss specLoss logsumexp
  congr 1
  apply Finset.sum_congr rfl
  intro t _
  congr 1
  apply Finset.sum_congr rfl
  intro m _
  exact exp_scoresWithDummy _ _ _

theorem simScores_zeroReps (t n : Fin (1 * 1)) :
    simScores zeroReps zeroReps t n = 0 := by
  simp [simScores, view2, zeroReps]

theorem logZ_zeroReps (t : Fin (1 * 1)) :
    logZ (simScores zeroReps zeroReps) t = 0 := by
  unfold logZ
  have hc : ∀ n : Fin (1 * 1), EReal.exp
      ((simScores zeroReps zeroReps t n : ℝ) : EReal) = 1 := fun n => by
    rw [simScores_zeroReps t n]
    simp
  have h1 : (∑ n : Fin (1 * 1), EReal.exp
      ((simScores zeroReps zeroReps t n : ℝ) : EReal)) = 1 := by
    rw [Finset.sum_congr rfl (fun n _ => hc n), Finset.sum_const]
    simp
  rw [h1, ENNReal.log_one]

theorem scoresWithDummy_zeroReps_dup (t : Fin (1 * 1)) (m : Fin 2) :
    scoresWithDummy (simScores zeroReps zeroReps) t (view2 dupTargets t m)
      = 0 := by
  have hv : ∀ (u : Fin (1 * 1)) (k : Fin 2),
      ((view2 dupTargets u k : Fin (1 * 1 + 1)) : ℕ) < 1 * 1 := by decide
  unfold scoresWithDummy
  rw [dif_pos (hv t m)]
  unfold logSoftmax
  rw [logZ_zeroReps t, simScores_zeroReps t]
  simp

/-- C2 counterexample: a batch whose single query token has two identical
valid target indices (so every query token has at least one valid target)
and whose loss is `-log 2 < 0`. -/
theorem get_batch_loss_neg_on_duplicate_targets :
    (∀ t : Fin (1 * 1), ∃ m : Fin 2,
      ((view2 dupTargets t m : Fin (1 * 1 + 1)) : ℕ) < 1 * 1) ∧
    get_batch_loss zeroReps zeroReps dupTargets < 0 := by
  constructor
  · decide
  · unfold get_batch_loss
    have hrow : ∀ t : Fin (1 * 1),
        logsumexp (fun m => scoresWithDummy (simScores zeroReps zeroReps) t
          (view2 dupTargets t m)) = ((Real.log 2 : ℝ) : EReal) := by
      intro t
      unfold logsumexp
      have h2 : (∑ m : Fin 2, EReal.exp
          (scoresWithDummy (simScores zeroReps zeroReps) t
            (view2 dupTargets t m))) = 2 := by
        rw [Fin.sum_univ_two, scoresWithDummy_zeroReps_dup t 0,
          scoresWithDummy_zeroReps_dup t 1]
        rw [EReal.exp_zero]
        norm_num
      rw [h2, ENNReal.log_pos_real (by norm_num) (by norm_num)]
      norm_num
    rw [Finset.sum_congr rfl (fun t _ => hrow t), Finset.sum_const]
    simp only [Finset.card_univ, Fintype.card_fin]
    rw [show (1 * 1 : ℕ) = 1 from rfl, one_smul, ← EReal.coe_neg]
    exact EReal.coe_neg'.mpr (neg_lt_zero.mpr (Real.log_pos one_lt_two))

/-- C2 amended: the batch loss is nonnegative whenever every query token has
at least one valid (non-sentinel) target index and the valid target indices
within each token's row are pairwise distinct. (With duplicated valid indices
the gathered probability mass can exceed 1 and the loss goes negative, as the
counterexample shows.) -/
theorem get_batch_loss_nonneg {Bq Sq H Bn Sn M : ℕ}
    (batch_representations : Fin Bq → Fin Sq → Fin H → ℝ)
    (neighbor_representations : Fin Bn → Fin Sn → Fin H → ℝ)
    (targets : Fin Bq → Fin Sq → Fin M → Fin (Bn * Sn + 1))
    (hvalid : ∀ t : Fin (Bq * Sq), ∃ m : Fin M,
      ((view2 targets t m : Fin (Bn * Sn + 1)) : ℕ) < Bn * Sn)
    (hdist : ∀ (t : Fin (Bq * Sq)) (m m' : Fin M),
      ((view2 targets t m : Fin (Bn * Sn + 1)) : ℕ) < Bn * Sn →
      view2 targets t m = view2 targets t m' → m = m') :
    0 ≤ get_batch_loss batch_representations neighbor_representations
      targets := by
  unfold get_batch_loss
  have hsum : (∑ t, logsumexp (fun m =>
      scoresWithDummy
        (simScores batch_representations neighbor_representations) t
        (view2 targets t m))) ≤ 0 := by
    apply Finset.sum_nonpos
    intro t _
    unfold logsumexp
    calc ENNReal.log (∑ m, EReal.exp
          (scoresWithDummy
            (simScores batch_representations neighbor_representations) t
            (view2 targets t m)))
        ≤ ENNReal.log 1 :=
          ENNReal.log_monotone
            (row_sum_le_one _ t _ (hvalid t) (hdist t))
      _ = 0 := ENNReal.log_one
  simpa using EReal.neg_le_neg_iff.mpr hsum

/-- Witness for C2 amended: one query token, one neighbor token, one valid
distinct target index; the loss is `-log 1 = 0 ≥ 0`. -/
theorem get_batch_loss_nonneg_witness :
    (∀ t : Fin (1 * 1), ∃ m : Fin 1,
      ((view2 singleTarget t m : Fin (1 * 1 + 1)) : ℕ) < 1 * 1) ∧
    (∀ (t : Fin (1 * 1)) (m m' : Fin 1),
      ((view2 singleTarget t m : Fin (1 * 1 + 1)) : ℕ) < 1 * 1 →
      view2 singleTarget t m = view2 singleTarget t m' → m = m') ∧
    0 ≤ get_batch_loss zeroReps zeroReps singleTarget :=
  ⟨by decide, by decide,
    get_batch_loss_nonneg zeroReps zeroReps singleTarget
      (by decide) (by decide)⟩

theorem maxOf_mem : ∀ {l : List EReal}, l ≠ [] → maxOf l ∈ l := by
  intro l
  induction l with
  | nil => intro h; exact absurd rfl h
  | cons a t ih =>
      intro _
      have hcons : maxOf (a :: t) = max a (maxOf t) := rfl
      by_cases ht : t = []
      · subst ht
        have : maxOf [a] = a := by
          rw [show maxOf [a] = max a ⊥ from rfl]
          exact max_eq_left bot_le
        rw [this]
        exact List.mem_singleton_self a
      · rcases le_total (maxOf t) a with h | h
        · rw [hcons, max_eq_left h]
          exact List.mem_cons_self a t
        · rw [hcons, max_eq_right h]
          exact List.mem_cons_of_mem a (ih ht)

theorem firstArgmax_lt_length {l : List EReal} (h : l ≠ []) :
    firstArgmax l < l.length := by
  apply List.findIdx_lt_length_of_exists
  exact ⟨maxOf l, maxOf_mem h, by simp⟩

/-- C3: for every input with a non-empty tag-to-mask table, the decoded
prediction structure has one row per batch sentence and one entry per token,
and every decoded tag is one of the tags present in the table. -/
theorem get_batch_predictions_tag_coverage {Bq Sq H Bn Sn : ℕ}
    (batch_representations : Fin Bq → Fin Sq → Fin H → ℝ)
    (neighbor_representations : Fin Bn → Fin Sn → Fin H → ℝ)
    (tag_to_mask : List (String × (Fin (Bq * Sq) → Fin (Bn * Sn) → EReal)))
    (hne : tag_to_mask ≠ []) :
    (get_batch_predictions batch_representations neighbor_representations
      tag_to_mask).length = Bq ∧
    (∀ row ∈ get_batch_predictions batch_representations
      neighbor_representations tag_to_mask, row.length = Sq) ∧
    (∀ row ∈ get_batch_predictions batch_representations
      neighbor_representations tag_to_mask,
      ∀ tg ∈ row, tg ∈ tag_to_mask.map Prod.fst) := by
  refine ⟨by simp [get_batch_predictions], ?_, ?_⟩
  · intro row hrow
    unfold get_batch_predictions at hrow
    simp only [List.mem_ofFn] at hrow
    obtain ⟨i, rfl⟩ := hrow
    simp
  · intro row hrow tg htg
    unfold get_batch_predictions at hrow
    simp only [List.mem_ofFn] at hrow
    obtain ⟨i, rfl⟩ := hrow
    simp only [List.mem_ofFn] at htg
    obtain ⟨j, rfl⟩ := htg
    beta_reduce
    set idx := firstArgmax
      ((tagScores batch_representations neighbor_representations
        tag_to_mask).map (fun f => f (flatPair i j))) with hidx
    have hlen : ((tagScores batch_representations neighbor_representations
        tag_to_mask).map (fun f => f (flatPair i j))).length =
        tag_to_mask.length := by
      simp [tagScores]
    have hlt : idx < tag_to_mask.length := by
      rw [← hlen]
      apply firstArgmax_lt_length
      intro hemp
      apply hne
      have hzero : ((tagScores batch_representations
          neighbor_representations tag_to_mask).map
          (fun f => f (flatPair i j))).length = 0 := by rw [hemp]; rfl
      rw [hlen] at hzero
      exact List.length_eq_zero.mp hzero
    have hget : tag_to_mask.getD idx ("", fun _ _ => ⊥) =
        tag_to_mask.get ⟨idx, hlt⟩ := by
      rw [List.getD_eq_getElem?_getD, List.getElem?_eq_getElem hlt]
      rfl
    rw [hget]
    exact List.mem_map.mpr ⟨tag_to_mask.get ⟨idx, hlt⟩, List.get_mem _ _ _, rfl⟩

/-- Witness for C3 on a toy batch with a single tag. -/
theorem get_batch_predictions_tag_coverage_witness :
    (([("O", fun _ _ => (0 : EReal))] :
      List (String × (Fin (1 * 1) → Fin (1 * 1) → EReal))) ≠ []) ∧
    ((get_batch_predictions zeroReps zeroReps
      [("O", fun _ _ => (0 : EReal))]).length = 1 ∧
    (∀ row ∈ get_batch_predictions zeroReps zeroReps
      [("O", fun _ _ => (0 : EReal))], row.length = 1) ∧
    (∀ row ∈ get_batch_predictions zeroReps zeroReps
      [("O", fun _ _ => (0 : EReal))],
      ∀ tg ∈ row, tg ∈ ([("O", fun _ _ => (0 : EReal))] :
        List (String × (Fin (1 * 1) → Fin (1 * 1) → EReal))).map Prod.fst)) :=
  ⟨by simp,
    get_batch_predictions_tag_coverage zeroReps zeroReps
      [("O", fun _ _ => (0 : EReal))] (by simp)⟩

theorem normalized_dot_abs_le {H : ℕ} (eps : ℝ) (heps : 0 < eps)
    (u v : Fin H → ℝ) :
    |∑ h, normalizeVec eps u h * normalizeVec eps v h| ≤ 1 := by
  have hmu : 0 < max (l2norm u) eps := lt_of_lt_of_le heps (le_max_right _ _)
  have hmv : 0 < max (l2norm v) eps := lt_of_lt_of_le heps (le_max_right _ _)
  have hrw : (∑ h, normalizeVec eps u h * normalizeVec eps v h) =
      (∑ h, u h * v h) / (max (l2norm u) eps * max (l2norm v) eps) := by
    rw [Finset.sum_div]
    apply Finset.sum_congr rfl
    intro h _
    unfold normalizeVec
    rw [div_mul_div_comm]
  have hcs : |∑ h, u h * v h| ≤ l2norm u * l2norm v := by
    have cs := Finset.sum_mul_sq_le_sq_mul_sq Finset.univ u v
    calc |∑ h, u h * v h|
        = Real.sqrt ((∑ h, u h * v h) ^ 2) := (Real.sqrt_sq_eq_abs _).symm
      _ ≤ Real.sqrt ((∑ h, u h ^ 2) * ∑ h, v h ^ 2) := Real.sqrt_le_sqrt cs
      _ = Real.sqrt (∑ h, u h ^ 2) * Real.sqrt (∑ h, v h ^ 2) :=
          Real.sqrt_mul (Finset.sum_nonneg fun h _ => sq_nonneg _) _
      _ = l2norm u * l2norm v := rfl
  rw [hrw, abs_div, abs_of_pos (mul_pos hmu hmv),
    div_le_one (mul_pos hmu hmv)]
  calc |∑ h, u h * v h| ≤ l2norm u * l2norm v := hcs
    _ ≤ max (l2norm u) eps * max (l2norm v) eps :=
        mul_le_mul (le_max_left _ _) (le_max_left _ _)
          (Real.sqrt_nonneg _) hmu.le

/-- C9: with the cosine toggle on, the training forward pass feeds
`get_batch_loss` both representation sets L2-normalized along the hidden
dimension, and every raw similarity score of the normalized representations
lies in `[-1, 1]`. -/
theorem cosine_normalized_scores_bounded {Bq Sq H Bn Sn M : ℕ}
    (batch_representations : Fin Bq → Fin Sq → Fin H → ℝ)
    (neighbor_representations : Fin Bn → Fin Sn → Fin H → ℝ)
    (targets : Fin Bq → Fin Sq → Fin M → Fin (Bn * Sn + 1)) :
    trainBatchLoss true batch_representations neighbor_representations
        targets =
      get_batch_loss (normalizeReps batch_representations)
        (normalizeReps neighbor_representations) targets ∧
    ∀ (t : Fin (Bq * Sq)) (n : Fin (Bn * Sn)),
      -1 ≤ simScores (normalizeReps batch_representations)
          (normalizeReps neighbor_representations) t n ∧
      simScores (normalizeReps batch_representations)
          (normalizeReps neighbor_representations) t n ≤ 1 := by
  refine ⟨rfl, fun t n => ?_⟩
  have hb : |simScores (normalizeReps batch_representations)
      (normalizeReps neighbor_representations) t n| ≤ 1 := by
    have hr : simScores (normalizeReps batch_representations)
        (normalizeReps neighbor_representations) t n =
        ∑ h, normalizeVec normalizeEps
            (batch_representations (unflatten t).1 (unflatten t).2) h *
          normalizeVec normalizeEps
            (neighbor_representations (unflatten n).1 (unflatten n).2) h := rfl
    rw [hr]
    exact normalized_dot_abs_le normalizeEps (by norm_num [normalizeEps]) _ _
  exact abs_le.mp hb

/-- C6: for every value, when the target device is the CPU, `move_to_device`
returns the input unchanged. -/
theorem move_to_device_cpu_id (obj : Obj) :
    move_to_device obj Device.cpu = obj := by
  rw [move_to_device.eq_def]
  simp

/-- C7 counterexample: on a value of unsupported shape (neither tensor nor any
recognised container) and a non-host device, `move_to_device` silently returns
the input unchanged instead of raising a classification error. -/
theorem move_to_device_unsupported_passthrough :
    move_to_device (Obj.other 7) (Device.cuda 0) = Obj.other 7 := by
  rw [move_to_device.eq_def]
  simp

/-- C7 amended: for every value of unsupported shape and every non-host target
device, `move_to_device` returns the value unchanged (silent passthrough);
no error case exists in the function. -/
theorem move_to_device_unsupported_unchanged (val : ℤ) (d : Device)
    (h : d ≠ Device.cpu) :
    move_to_device (Obj.other val) d = Obj.other val := by
  rw [move_to_device.eq_def]
  simp [h]

/-- Witness for C7 amended at a concrete unsupported value and device. -/
theorem move_to_device_unsupported_unchanged_witness :
    Device.cuda 3 ≠ Device.cpu ∧
      move_to_device (Obj.other 5) (Device.cuda 3) = Obj.other 5 :=
  ⟨by decide, move_to_device_unsupported_unchanged 5 (Device.cuda 3) (by decide)⟩

/-- C8: micro precision is `corrects / preds` when `preds > 0` and `0`
otherwise; micro recall is `corrects / golds` when `golds > 0` and `0`
otherwise; and the F1 computation raises (division by zero) exactly when both
micro precision and micro recall are `0`. -/
theorem evaluate_metrics_spec (p g c : ℚ) (hc : 0 ≤ c) :
    (0 < p → microPrec p c = c / p) ∧
    (¬ 0 < p → microPrec p c = 0) ∧
    (0 < g → microRec g c = c / g) ∧
    (¬ 0 < g → microRec g c = 0) ∧
    ((∃ e, microF1 p g c = Except.error e) ↔
      microPrec p c = 0 ∧ microRec g c = 0) := by
  have hprec : 0 ≤ microPrec p c := by
    unfold microPrec
    split
    · exact div_nonneg hc (le_of_lt (by assumption))
    · exact le_refl 0
  have hrec : 0 ≤ microRec g c := by
    unfold microRec
    split
    · exact div_nonneg hc (le_of_lt (by assumption))
    · exact le_refl 0
  refine ⟨fun hp => by simp [microPrec, hp], fun hp => by simp [microPrec, hp],
    fun hg => by simp [microRec, hg], fun hg => by simp [microRec, hg], ?_⟩
  constructor
  · rintro ⟨e, he⟩
    unfold microF1 at he
    by_cases hz : microPrec p c + microRec g c = 0
    · constructor
      · linarith [(add_eq_zero_iff_of_nonneg hprec hrec).mp hz]
      · linarith [(add_eq_zero_iff_of_nonneg hprec hrec).mp hz]
    · simp only [hz, if_neg] at he
      exact absurd he (by simp)
  · rintro ⟨h1, h2⟩
    refine ⟨"ZeroDivisionError: float division by zero", ?_⟩
    unfold microF1
    simp [h1, h2]

theorem chunkList_join_aux {α : Type} (K : ℕ) :
    ∀ (n : ℕ) (l : List α), l.length ≤ n → (chunkList K l).flatten = l := by
  intro n
  induction n with
  | zero =>
      intro l hl
      have hnil : l = [] := List.length_eq_zero.mp (Nat.le_zero.mp hl)
      subst hnil
      simp [chunkList]
  | succ n ih =>
      intro l hl
      cases l with
      | nil => simp [chunkList]
      | cons a t =>
          rw [chunkList, List.flatten_cons, ih (t.drop (K - 1))
            (by simp only [List.length_drop]; simp only [List.length_cons] at hl; omega)]
          simp [List.take_append_drop]

/-- Splitting into chunks and concatenating restores the original batch. -/
theorem chunkList_join {α : Type} (K : ℕ) (l : List α) :
    (chunkList K l).flatten = l :=
  chunkList_join_aux K l.length l (le_refl _)

theorem chunkList_length_le_aux {α : Type} (K : ℕ) (hK : 1 ≤ K) :
    ∀ (n : ℕ) (l : List α), l.length ≤ n →
      ∀ c ∈ chunkList K l, c.length ≤ K := by
  intro n
  induction n with
  | zero =>
      intro l hl c hc
      have hnil : l = [] := List.length_eq_zero.mp (Nat.le_zero.mp hl)
      subst hnil
      simp [chunkList] at hc
  | succ n ih =>
      intro l hl c hc
      cases l with
      | nil => simp [chunkList] at hc
      | cons a t =>
          rw [chunkList] at hc
          rcases List.mem_cons.mp hc with h | h
          · subst h
            simp only [List.length_cons, List.length_take]
            omega
          · exact ih (t.drop (K - 1))
              (by simp only [List.length_drop]; simp only [List.length_cons] at hl; omega) c h

/-- Every chunk produced by `torch.split` with size `K ≥ 1` has length `≤ K`. -/
theorem chunkList_length_le {α : Type} {K : ℕ} (hK : 1 ≤ K) (l : List α) :
    ∀ c ∈ chunkList K l, c.length ≤ K :=
  chunkList_length_le_aux K hK l.length l (le_refl _)

theorem wordRepsFull_append {S H : ℕ}
    (bert : (Fin S → ℕ) → (Fin S → ℕ) → Fin S → Fin H → ℝ)
    (x₁ x₂ : List (Fin S → ℕ)) (m₁ m₂ : List (Fin S → Fin S → ℝ))
    (h : x₁.length = m₁.length) :
    wordRepsFull bert (x₁ ++ x₂) (m₁ ++ m₂) =
      wordRepsFull bert x₁ m₁ ++ wordRepsFull bert x₂ m₂ := by
  unfold wordRepsFull
  exact List.zipWith_append _ _ _ _ _ h

theorem wordReps_chunked_aux {S H : ℕ}
    (bert : (Fin S → ℕ) → (Fin S → ℕ) → Fin S → Fin H → ℝ) (K : ℕ) :
    ∀ (n : ℕ) (x : List (Fin S → ℕ)) (mapper : List (Fin S → Fin S → ℝ)),
      x.length ≤ n → x.length = mapper.length →
      (((chunkList K x).zip (chunkList K mapper)).map
        (fun p => wordRepsFull bert p.1 p.2)).flatten = wordRepsFull bert x mapper := by
  intro n
  induction n with
  | zero =>
      intro x mapper hn hlen
      have hx : x = [] := List.length_eq_zero.mp (Nat.le_zero.mp hn)
      subst hx
      have hm : mapper = [] := List.length_eq_zero.mp hlen.symm
      subst hm
      simp [chunkList, wordRepsFull]
  | succ n ih =>
      intro x mapper hn hlen
      cases x with
      | nil =>
          have hm : mapper = [] := List.length_eq_zero.mp hlen.symm
          subst hm
          simp [chunkList, wordRepsFull]
      | cons a xt =>
          cases mapper with
          | nil => simp at hlen
          | cons b mt =>
              simp only [List.length_cons, Nat.succ_le_succ_iff] at hn
              simp only [List.length_cons, Nat.succ.injEq] at hlen
              rw [chunkList, chunkList, List.zip_cons_cons, List.map_cons,
                List.flatten_cons,
                ih (xt.drop (K - 1)) (mt.drop (K - 1))
                  (by simp only [List.length_drop]; omega)
                  (by simp only [List.length_drop, hlen]),
                ← wordRepsFull_append bert _ _ _ _
                  (by simp only [List.length_cons, List.length_take]; omega)]
              rw [List.cons_append, List.take_append_drop, List.cons_append,
                List.take_append_drop]

/-- C4: for every shard size `K ≥ 1` (dividing the batch size or not), the
representation extractor's output with `shard_batch_size = K` equals its
output on the same inputs without sharding. -/
theorem get_word_representations_shard_eq {S H : ℕ}
    (bert : (Fin S → ℕ) → (Fin S → ℕ) → Fin S → Fin H → ℝ)
    (x : List (Fin S → ℕ)) (mapper : List (Fin S → Fin S → ℝ)) (K : ℕ)
    (hK : 1 ≤ K) (hlen : x.length = mapper.length) :
    get_word_representations bert x mapper (some K) =
      get_word_representations bert x mapper none := by
  rw [get_word_representations, get_word_representations]
  rw [show (fun p : List (Fin S → ℕ) × List (Fin S → Fin S → ℝ) =>
        get_word_representations bert p.1 p.2 none) =
      (fun p : List (Fin S → ℕ) × List (Fin S → Fin S → ℝ) =>
        wordRepsFull bert p.1 p.2) from
    funext (fun p => by rw [get_word_representations])]
  exact wordReps_chunked_aux bert K x.length x mapper (le_refl _) hlen

/-- Witness for C4 on a concrete two-sentence batch with shard size 1. -/
theorem get_word_representations_shard_eq_witness :
    1 ≤ 1 ∧
    ([fun _ => 1, fun _ => 2] : List (Fin 1 → ℕ)).length =
      ([fun _ _ => 1, fun _ _ => 0] : List (Fin 1 → Fin 1 → ℝ)).length ∧
    get_word_representations (S := 1) (H := 1) (fun _ _ _ _ => (1 : ℝ))
        [fun _ => 1, fun _ => 2] [fun _ _ => 1, fun _ _ => 0] (some 1) =
      get_word_representations (S := 1) (H := 1) (fun _ _ _ _ => (1 : ℝ))
        [fun _ => 1, fun _ => 2] [fun _ _ => 1, fun _ _ => 0] none :=
  ⟨le_refl 1, rfl,
    get_word_representations_shard_eq (S := 1) (H := 1) (fun _ _ _ _ => (1 : ℝ))
      [fun _ => 1, fun _ => 2] [fun _ _ => 1, fun _ _ => 0] 1 (le_refl 1) rfl⟩

theorem zipWith_chunked_flatten_aux {α β γ : Type} (f : α → β → γ) (K : ℕ) :
    ∀ (n : ℕ) (x : List α) (y : List β), x.length ≤ n → x.length = y.length →
      (((chunkList K x).zip (chunkList K y)).map
        (fun p => List.zipWith f p.1 p.2)).flatten = List.zipWith f x y := by
  intro n
  induction n with
  | zero =>
      intro x y hn hlen
      have hx : x = [] := List.length_eq_zero.mp (Nat.le_zero.mp hn)
      subst hx
      have hy : y = [] := List.length_eq_zero.mp hlen.symm
      subst hy
      simp [chunkList]
  | succ n ih =>
      intro x y hn hlen
      cases x with
      | nil =>
          have hy : y = [] := List.length_eq_zero.mp hlen.symm
          subst hy
          simp [chunkList]
      | cons a xt =>
          cases y with
          | nil => simp at hlen
          | cons b yt =>
              simp only [List.length_cons, Nat.succ_le_succ_iff] at hn
              simp only [List.length_cons, Nat.succ.injEq] at hlen
              rw [chunkList, chunkList, List.zip_cons_cons, List.map_cons,
                List.flatten_cons,
                ih (xt.drop (K - 1)) (yt.drop (K - 1))
                  (by simp only [List.length_drop]; omega)
                  (by simp only [List.length_drop, hlen]),
                ← List.zipWith_append _ _ _ _ _
                  (by simp only [List.length_cons, List.length_take]; omega)]
              rw [List.cons_append, List.take_append_drop, List.cons_append,
                List.take_append_drop]

/-- In the autograd-tracking semantics, sharded and unsharded outputs are
identical — values and tracking bits alike — so the sharded path inserts no
detachment anywhere. -/
theorem get_word_representations_tracked_shard_eq {S H : ℕ}
    (bert : (Fin S → ℕ) → (Fin S → ℕ) → Fin S → Fin H → GradReal)
    (x : List (Fin S → ℕ)) (mapper : List (Fin S → Fin S → ℝ)) (K : ℕ)
    (hlen : x.length = mapper.length) :
    get_word_representations_tracked bert x mapper (some K) =
      get_word_representations_tracked bert x mapper none := by
  rw [get_word_representations_tracked, get_word_representations_tracked]
  rw [show (fun p : List (Fin S → ℕ) × List (Fin S → Fin S → ℝ) =>
        get_word_representations_tracked bert p.1 p.2 none) =
      (fun p : List (Fin S → ℕ) × List (Fin S → Fin S → ℝ) =>
        wordRepsFullTracked bert p.1 p.2) from
    funext (fun p => by rw [get_word_representations_tracked])]
  unfold wordRepsFullTracked
  exact zipWith_chunked_flatten_aux _ K x.length x mapper (le_refl _) hlen

/-- C5 counterexample: a two-sentence batch, shard size `1 < 2`, and an
encoder whose outputs require grad. Every entry of the sharded output still
has `requiresGrad = true`, while processing a chunk "with gradients detached"
would, by the semantics of `detach`, leave `requiresGrad = false`: the code
performs no detaching between chunks. -/
theorem get_word_representations_shard_no_detach_counterexample :
    (1 ≤ 1 ∧ 1 < ([fun _ => 1, fun _ => 2] : List (Fin 1 → ℕ)).length) ∧
    (∀ rep ∈ get_word_representations_tracked (S := 1) (H := 1)
        (fun _ _ _ _ => ⟨1, true⟩) [fun _ => 1, fun _ => 2]
        [fun _ _ => 1, fun _ _ => 1] (some 1),
      ∀ (w h : Fin 1), (rep w h).requiresGrad = true) ∧
    (∀ g : GradReal, g.detach.requiresGrad = false) := by
  refine ⟨⟨le_refl 1, by simp⟩, ?_, fun g => rfl⟩
  intro rep hrep
  simp [get_word_representations_tracked, chunkList,
    wordRepsFullTracked] at hrep
  subst hrep
  intro w h'
  simp [rsmul]

/-- C5 (amended): with `shard_batch_size = K` set and `K < B`, both inputs are
split along the batch axis into `torch.split` chunks of size at most `K`,
each chunk pair is processed by the full (unsharded) path, and the chunk
results are concatenated in the original order (concatenating the chunks
themselves restores the inputs). No gradient detaching happens between
chunks: in the autograd-tracking semantics the sharded computation factors
through the same chunks and its output — tracking bits included — is
identical to the unsharded output. -/
theorem get_word_representations_shard_chunks_no_detach {S H : ℕ}
    (bert : (Fin S → ℕ) → (Fin S → ℕ) → Fin S → Fin H → ℝ)
    (bertTracked : (Fin S → ℕ) → (Fin S → ℕ) → Fin S → Fin H → GradReal)
    (x : List (Fin S → ℕ)) (mapper : List (Fin S → Fin S → ℝ)) (K : ℕ)
    (hK : 1 ≤ K) (hKB : K < x.length) (hlen : x.length = mapper.length) :
    get_word_representations bert x mapper (some K) =
      (((chunkList K x).zip (chunkList K mapper)).map
        (fun p => wordRepsFull bert p.1 p.2)).flatten ∧
    (∀ c ∈ chunkList K x, c.length ≤ K) ∧
    (∀ c ∈ chunkList K mapper, c.length ≤ K) ∧
    (chunkList K x).flatten = x ∧ (chunkList K mapper).flatten = mapper ∧
    get_word_representations_tracked bertTracked x mapper (some K) =
      (((chunkList K x).zip (chunkList K mapper)).map
        (fun p => wordRepsFullTracked bertTracked p.1 p.2)).flatten ∧
    get_word_representations_tracked bertTracked x mapper (some K) =
      get_word_representations_tracked bertTracked x mapper none := by
  refine ⟨?_, chunkList_length_le hK x, chunkList_length_le hK mapper,
    chunkList_join K x, chunkList_join K mapper, ?_,
    get_word_representations_tracked_shard_eq bertTracked x mapper K hlen⟩
  · rw [get_word_representations]
    rw [show (fun p : List (Fin S → ℕ) × List (Fin S → Fin S → ℝ) =>
          get_word_representations bert p.1 p.2 none) =
        (fun p : List (Fin S → ℕ) × List (Fin S → Fin S → ℝ) =>
          wordRepsFull bert p.1 p.2) from
      funext (fun p => by rw [get_word_representations])]
  · rw [get_word_representations_tracked]
    rw [show (fun p : List (Fin S → ℕ) × List (Fin S → Fin S → ℝ) =>
          get_word_representations_tracked bertTracked p.1 p.2 none) =
        (fun p : List (Fin S → ℕ) × List (Fin S → Fin S → ℝ) =>
          wordRepsFullTracked bertTracked p.1 p.2) from
      funext (fun p => by rw [get_word_representations_tracked])]

/-- Witness for C5 (amended) on a concrete two-sentence batch with shard
size 1 and a grad-requiring tracked encoder. -/
theorem get_word_representations_shard_chunks_no_detach_witness :
    1 ≤ 1 ∧ 1 < ([fun _ => 1, fun _ => 2] : List (Fin 1 → ℕ)).length ∧
    (get_word_representations (S := 1) (H := 1) (fun _ _ _ _ => (1 : ℝ))
        [fun _ => 1, fun _ => 2] [fun _ _ => 1, fun _ _ => 0] (some 1) =
      (((chunkList 1 [fun _ => 1, fun _ => 2]).zip
          (chunkList 1 ([fun _ _ => 1, fun _ _ => 0] : List (Fin 1 → Fin 1 → ℝ)))).map
        (fun p => wordRepsFull (S := 1) (H := 1) (fun _ _ _ _ => (1 : ℝ)) p.1 p.2)).flatten ∧
    (∀ c ∈ chunkList 1 ([fun _ => 1, fun _ => 2] : List (Fin 1 → ℕ)),
      c.length ≤ 1) ∧
    (∀ c ∈ chunkList 1 ([fun _ _ => 1, fun _ _ => 0] : List (Fin 1 → Fin 1 → ℝ)),
      c.length ≤ 1) ∧
    (chunkList 1 ([fun _ => 1, fun _ => 2] : List (Fin 1 → ℕ))).flatten =
      [fun _ => 1, fun _ => 2] ∧
    (chunkList 1 ([fun _ _ => 1, fun _ _ => 0] : List (Fin 1 → Fin 1 → ℝ))).flatten =
      [fun _ _ => 1, fun _ _ => 0] ∧
    get_word_representations_tracked (S := 1) (H := 1)
        (fun _ _ _ _ => ⟨1, true⟩) [fun _ => 1, fun _ => 2]
        [fun _ _ => 1, fun _ _ => 0] (some 1) =
      (((chunkList 1 [fun _ => 1, fun _ => 2]).zip
          (chunkList 1 ([fun _ _ => 1, fun _ _ => 0] : List (Fin 1 → Fin 1 → ℝ)))).map
        (fun p => wordRepsFullTracked (S := 1) (H := 1)
          (fun _ _ _ _ => ⟨1, true⟩) p.1 p.2)).flatten ∧
    get_word_representations_tracked (S := 1) (H := 1)
        (fun _ _ _ _ => ⟨1, true⟩) [fun _ => 1, fun _ => 2]
        [fun _ _ => 1, fun _ _ => 0] (some 1) =
      get_word_representations_tracked (fun _ _ _ _ => ⟨1, true⟩)
        [fun _ => 1, fun _ => 2] [fun _ _ => 1, fun _ _ => 0] none) :=
  ⟨le_refl 1, by simp,
    get_word_representations_shard_chunks_no_detach (S := 1) (H := 1)
      (fun _ _ _ _ => (1 : ℝ)) (fun _ _ _ _ => ⟨1, true⟩)
      [fun _ => 1, fun _ => 2] [fun _ _ => 1, fun _ _ => 0] 1
      (le_refl 1) (by simp) rfl⟩

/-- C10: the gradient buffer is zeroed at the start of every batch iteration,
so one loop iteration is determined by the incoming parameters and the current
batch alone — the optimizer step consumes exactly the clipped gradient of the
current batch, and the epoch fold is independent of any gradient state left
from before the first processed batch. -/
theorem optimizer_cycle_uses_only_current_batch {P G B : Type} [AddCommMonoid G]
    (gradOf : P → B → G) (clipGrads : G → G) (applyStep : P → G → P)
    (p : P) (g gStale : G) (b : B) (batches : List B) :
    optimizerCycle gradOf clipGrads applyStep (p, g) b =
      (applyStep p (clipGrads (gradOf p b)), clipGrads (gradOf p b)) ∧
    trainEpochFold gradOf clipGrads applyStep (p, g) (b :: batches) =
      trainEpochFold gradOf clipGrads applyStep (p, gStale) (b :: batches) := by
  constructor
  · simp [optimizerCycle]
  · unfold trainEpochFold
    rw [List.foldl_cons, List.foldl_cons]
    simp [optimizerCycle]

/-- Witness for C10 at a concrete rational state and batch list. -/
theorem optimizer_cycle_uses_only_current_batch_witness :
    optimizerCycle (fun p b => p + b) (fun g => g) (fun p g => p - g)
        ((5 : ℚ), (3 : ℚ)) (2 : ℚ) =
      ((5 : ℚ) - ((5 : ℚ) + 2), (5 : ℚ) + 2) ∧
    trainEpochFold (fun p b => p + b) (fun g => g) (fun p g => p - g)
        ((5 : ℚ), (3 : ℚ)) [(2 : ℚ), 7] =
      trainEpochFold (fun p b => p + b) (fun g => g) (fun p g => p - g)
        ((5 : ℚ), (9 : ℚ)) [(2 : ℚ), 7] :=
  optimizer_cycle_uses_only_current_batch (fun p b => p + b) (fun g => g)
    (fun p g => p - g) 5 3 9 2 [7]

/-- Witness for C8 at concrete totals. -/
theorem evaluate_metrics_spec_witness :
    (0 : ℚ) ≤ 1 ∧
    ((0 < (2 : ℚ) → microPrec 2 1 = 1 / 2) ∧
    (¬ 0 < (2 : ℚ) → microPrec 2 1 = 0) ∧
    (0 < (4 : ℚ) → microRec 4 1 = 1 / 4) ∧
    (¬ 0 < (4 : ℚ) → microRec 4 1 = 0) ∧
    ((∃ e, microF1 2 4 1 = Except.error e) ↔
      microPrec 2 1 = 0 ∧ microRec 4 1 = 0)) :=
  ⟨by norm_num, evaluate_metrics_spec 2 4 1 (by norm_num)⟩

end TrainWords
